import Mathlib

/-!
Shallow embedding of the polynomial / rational-function core of the
sym_tfg repository (`src/polynomial.rs`), together with proofs settling
the claims about it.

Modelling conventions, stated once here and referenced by the doc
comments below:

* `Rational64` (the `num` crate's `i64`-based exact rational) is modelled
  by `ℚ`.  The `i64` overflow panics of the source are not modelled.
* Rust panics (index out of bounds, `Rational64::new` with a zero
  denominator, division by a zero rational, `panic!` calls) are modelled
  by `Option`: a function that can panic returns `none` exactly where the
  source panics.
* `Vec::sort_by` is a stable sort; it is modelled by a stable insertion
  sort (`stableSort`).  For a total comparator the output of any two
  stable sorts coincides, so this is faithful.
* The coefficient computation of `Term::pow`
  (`Rational64::from_f64(c.to_f64().powf(q.to_f64()))`) goes through
  IEEE-754 doubles in the source.  It is idealized here to exact rational
  exponentiation (`ratPowExact`): when `c^q` is an exact rational the
  model returns it (the source agrees whenever the doubles involved are
  exactly representable, which covers every concrete input evaluated in
  this file); when `c^q` is irrational the source either keeps the term
  unchanged (integer `c`, the guard), stores a platform-dependent dyadic
  approximation (non-integer `c`), or panics (`NaN`/`inf` cases, e.g. a
  negative base with fractional exponent); all three are modelled as
  returning the term unchanged.  Similarly the degree round-trips through
  `f64` (`degree.to_f64()`, `fract() == 0.0`, `as i64`) are idealized to
  exact rational tests (`den = 1`, `2 ≤ num`).
-/

set_option allowUnsafeReducibility true in
attribute [semireducible] Rat.mul Rat.add Rat.sub Rat.inv

namespace SymTfg

/-- Mirrors `struct Variable` (`polynomial.rs` lines 7-11): a name plus a
rational degree. -/
structure Variable where
  name : String
  degree : ℚ
deriving DecidableEq, Repr

/-- Mirrors `struct Term` (lines 19-23): a rational coefficient times a
list of variables. -/
structure Term where
  coefficient : ℚ
  vars : List Variable
deriving DecidableEq, Repr

/-- Mirrors `struct Polynomial` (lines 161-165).  The `degree` field is
the pending outer exponent applied to the whole sum, exactly as in the
source. -/
structure Polynomial where
  terms : List Term
  degree : ℚ
deriving DecidableEq, Repr

/-- Mirrors `struct PolyRatio` (lines 712-716). -/
structure PolyRatio where
  numerator : Polynomial
  denominator : Polynomial
deriving DecidableEq, Repr

/-- Insert `a` into the sorted list `l`, before the first element `b`
with `lt a b`; on ties `a` goes after the existing element, which is
exactly the stability guarantee of Rust's `sort_by`. -/
def insertLt (lt : α → α → Bool) (a : α) : List α → List α
  | [] => [a]
  | b :: bs => if lt a b then a :: b :: bs else b :: insertLt lt a bs

/-- Stable insertion sort; models `Vec::sort_by` (a stable sort) for the
strict comparator `lt`. -/
def stableSort (lt : α → α → Bool) (l : List α) : List α :=
  l.foldl (fun acc a => insertLt lt a acc) []

/-- Three-way comparison on `ℚ`; models `Ord` on `Rational64`. -/
def qCmp (a b : ℚ) : Ordering :=
  if a < b then .lt else if b < a then .gt else .eq

/-- Lexicographic strict order on character lists; `[] < c :: cs`, equal
heads recurse. -/
def charListLt : List Char → List Char → Bool
  | [], [] => false
  | [], _ :: _ => true
  | _ :: _, [] => false
  | a :: xs, b :: ys =>
    if a < b then true else if b < a then false else charListLt xs ys

/-- Strict order on names; models `Ord` on Rust `String` (byte-wise on
UTF-8, which agrees with the codepoint-lexicographic order used here). -/
def strLtB (a b : String) : Bool := charListLt a.data b.data

/-- Three-way comparison on names; models `Ord` on Rust `String`. -/
def strCmp (a b : String) : Ordering :=
  if strLtB a b then .lt else if strLtB b a then .gt else .eq

/-- Derived `Ord` on `Variable`: by `name`, then by `degree`. -/
def varCmp (a b : Variable) : Ordering :=
  match strCmp a.name b.name with
  | .eq => qCmp a.degree b.degree
  | o => o

/-- Lexicographic `Ord` on `Vec<Variable>`. -/
def varsCmp : List Variable → List Variable → Ordering
  | [], [] => .eq
  | [], _ :: _ => .lt
  | _ :: _, [] => .gt
  | a :: xs, b :: ys =>
    match varCmp a b with
    | .eq => varsCmp xs ys
    | o => o

/-- Largest `m` with `m ^ k ≤ n` (for `n ≥ 1`, the integer `k`-th root);
helper for `ratPowExact`. -/
def kthRoot (n k : ℕ) : ℕ :=
  (List.range (n + 1)).foldl (fun acc m => if m ^ k ≤ n then m else acc) 0

/-- Exact integer power of a rational; `none` models the `inf` produced
by `powf` on a zero base with negative exponent (which the source turns
into a panic via `.unwrap()`). -/
def ratPowInt (c : ℚ) (k : ℤ) : Option ℚ :=
  if 0 ≤ k then some (c ^ k.toNat)
  else if c = 0 then none
  else some (c⁻¹ ^ (-k).toNat)

/-- Exact value of `c ^ q` when it is rational, `none` otherwise
(irrational root, or `NaN` for a negative base with fractional
exponent).  Idealizes the `f64` pipeline of `Term::pow` (line 77-79);
see the module comment. -/
def ratPowExact (c q : ℚ) : Option ℚ :=
  if q.den = 1 then ratPowInt c q.num
  else if c < 0 then none
  else
    (ratPowInt c q.num).bind fun c1 =>
      let rn := kthRoot c1.num.toNat q.den
      let rd := kthRoot c1.den q.den
      if rn ^ q.den = c1.num.toNat ∧ rd ^ q.den = c1.den then
        some ((rn : ℚ) / (rd : ℚ))
      else none

/-- Mirrors `Term::max_degree` (lines 27-33): maximum variable degree,
`0` for a term with no variables. -/
def Term.maxDegree (t : Term) : ℚ :=
  match t.vars.map Variable.degree with
  | [] => 0
  | d :: ds => ds.foldl max d

/-- Mirrors `Term::sort_vars` (lines 36-38): stable sort of the
variables by name. -/
def Term.sortVars (t : Term) : Term :=
  ⟨t.coefficient, stableSort (fun a b => strLtB a.name b.name) t.vars⟩

/-- One step of `Term::factor`'s merge loop (lines 41-58): add `v` into
the accumulator, summing degrees into the first variable of the same
name, else appending at the end. -/
def mergeVarInto : List Variable → Variable → List Variable
  | [], v => [v]
  | w :: ws, v =>
    if w.name = v.name then { w with degree := w.degree + v.degree } :: ws
    else w :: mergeVarInto ws v

/-- Mirrors `Term::factor` (lines 41-58): combine like variables, then
drop variables of degree `0`. -/
def Term.factorVars (t : Term) : Term :=
  ⟨t.coefficient, (t.vars.foldl mergeVarInto []).filter fun v => decide (v.degree ≠ 0)⟩

/-- Mirrors `Term::invert` (lines 61-66).  The source builds
`Rational64::new(denom, numer)`, which panics when the numerator is `0`;
that panic is modelled as `none`. -/
def Term.invert (t : Term) : Option Term :=
  if t.coefficient.num = 0 then none
  else some ⟨t.coefficient⁻¹, t.vars.map fun v => { v with degree := -v.degree }⟩

/-- Mirrors `Term::pow` (lines 69-88): multiply every variable degree by
`q`; raise the coefficient, except that when the coefficient is an
integer (denominator 1) and the powered result is not an exact rational
with denominator 1, the whole term is returned unchanged.  The `f64`
coefficient pipeline is idealized by `ratPowExact`; the `none` case (an
irrational result, or a `NaN`/`inf` panic in the source) is modelled as
returning the term unchanged — see the module comment. -/
def Term.pow (t : Term) (q : ℚ) : Term :=
  let newVars := t.vars.map fun v => { v with degree := v.degree * q }
  match ratPowExact t.coefficient q with
  | some r => if t.coefficient.den = 1 ∧ r.den ≠ 1 then t else ⟨r, newVars⟩
  | none => t

/-- The canonical zero term `{coefficient: 0, variables: []}` (lines
333-336). -/
def zeroTerm : Term := ⟨0, []⟩

/-- The canonical zero polynomial `0` with outer exponent 1 (the
`zero_poly` local of `Div`, lines 666-672). -/
def zeroPoly1 : Polynomial := ⟨[zeroTerm], 1⟩

/-- The constant polynomial `1` (the denominator built by
`PolyRatio::from`, lines 971-984). -/
def onePoly : Polynomial := ⟨[⟨1, []⟩], 1⟩

/-- One step of `Polynomial::add_like_terms`'s loop (lines 274-298): add
`t` into the accumulator, summing coefficients into the first term with
the literally equal variable list, else appending at the end. -/
def addTermInto : List Term → Term → List Term
  | [], t => [⟨t.coefficient, t.vars⟩]
  | u :: us, t =>
    if u.vars = t.vars then
      { u with coefficient := u.coefficient + t.coefficient } :: us
    else u :: addTermInto us t

/-- Mirrors `Polynomial::add_like_terms` (lines 274-298). -/
def addLikeTerms (ts : List Term) : List Term := ts.foldl addTermInto []

/-- The comparator of `Polynomial::sort_terms` (lines 226-244):
descending by each term's maximum variable degree, ties broken by the
lexicographic order on the variable lists. -/
def termCmp (a b : Term) : Ordering :=
  match qCmp b.maxDegree a.maxDegree with
  | .eq => varsCmp a.vars b.vars
  | o => o

/-- Strict version of `termCmp`, used for the stable sort. -/
def termLt (a b : Term) : Bool := decide (termCmp a b = Ordering.lt)

/-- Steps 3-7 of `Polynomial::simplify` (lines 317-339): sort each
term's variables, merge like variables, add like terms, drop terms with
coefficient 0 (reinserting the canonical zero term if the list becomes
empty), and sort the terms.  The `degree` field is left untouched,
exactly as in the source. -/
def canonTail (p : Polynomial) : Polynomial :=
  let ts1 := p.terms.map Term.sortVars
  let ts2 := ts1.map Term.factorVars
  let ts3 := addLikeTerms ts2
  let ts4 := ts3.filter fun t => decide (t.coefficient ≠ 0)
  let ts5 := if ts4 = [] then [zeroTerm] else ts4
  ⟨stableSort termLt ts5, p.degree⟩

/-- `Polynomial::simplify` specialized to the polynomials built inside
the binary operators, whose `degree` field is the literal `1` so the
self-multiplication branch (line 309) can never fire; see
`simplify_degree_one` below for the proof that this agrees with the full
`simplify` on every polynomial of degree 1. -/
def simplify1 (p : Polynomial) : Polynomial :=
  match p.terms with
  | [t] => canonTail ⟨[Term.pow t p.degree], p.degree⟩
  | _ => canonTail p

/-- The cross-product of term lists of `impl Mul for Polynomial` (lines
610-624): every left term against every right term, concatenating
variable lists, multiplying coefficients, then `sort_vars` and `factor`
on each product term. -/
def crossTerms (ts us : List Term) : List Term :=
  ts.flatMap fun t1 =>
    us.map fun t2 =>
      Term.factorVars (Term.sortVars ⟨t1.coefficient * t2.coefficient, t1.vars ++ t2.vars⟩)

/-- Mirrors `impl Mul for Polynomial` (lines 607-632): cross-product of
the term lists into a polynomial with degree field 1, then `simplify`
(which on a degree-1 polynomial is `simplify1`). -/
def mulPoly (p q : Polynomial) : Polynomial :=
  simplify1 ⟨crossTerms p.terms q.terms, 1⟩

/-- The self-multiplication loop of `Polynomial::simplify` (lines
309-313): `k` iterations of `self = self * self`. -/
def powIter (k : ℕ) (p : Polynomial) : Polynomial :=
  Nat.iterate (fun s => mulPoly s s) k p

/-- Mirrors `Polynomial::simplify` (lines 301-340).  With exactly one
term, the term is raised to the `degree` field via `Term::pow` — and the
`degree` field is NOT reset afterwards (the source keeps it, line 308).
Otherwise, when the degree is an integer `≥ 2`, the polynomial is
squared `degree − 1` times (lines 309-313).  Then the common
canonicalization tail runs (lines 317-339).  The `f64` round-trips on
the degree are idealized to exact tests (`den = 1`, `2 ≤ num`); see the
module comment. -/
def simplify (p : Polynomial) : Polynomial :=
  match p.terms with
  | [t] => canonTail ⟨[Term.pow t p.degree], p.degree⟩
  | _ =>
    if p.degree.den = 1 ∧ 2 ≤ p.degree.num then
      canonTail (powIter (p.degree.num.toNat - 1) p)
    else canonTail p

/-- Mirrors `impl Add for Polynomial` (lines 580-593): concatenate the
term lists into a polynomial with degree field 1 and `simplify`. -/
def polyAdd (p q : Polynomial) : Polynomial :=
  simplify ⟨p.terms ++ q.terms, 1⟩

/-- Mirrors `impl Sub for Polynomial` (lines 595-605): negate the right
operand's coefficients, then add. -/
def polySub (p q : Polynomial) : Polynomial :=
  polyAdd p { q with terms := q.terms.map fun t => { t with coefficient := -t.coefficient } }

/-- Mirrors `impl PartialEq for Term` (lines 150-159): sort the variable
lists of copies of both sides, then compare coefficient and variable
sequence. -/
def termEqB (a b : Term) : Bool :=
  let a2 := Term.sortVars a
  let b2 := Term.sortVars b
  decide (a2.coefficient = b2.coefficient ∧ a2.vars = b2.vars)

/-- `Vec<Term>` equality: same length, elementwise `Term` equality. -/
def termsEqList : List Term → List Term → Bool
  | [], [] => true
  | a :: xs, b :: ys => termEqB a b && termsEqList xs ys
  | _, _ => false

/-- Mirrors `impl PartialEq for Polynomial` (lines 702-710).  Note the
source simplifies CLONES of both sides and then discards them — the
comparison is `self.terms == other.terms` on the original, unsimplified
term lists.  The dead simplifications are mirrored by the unused
`let` bindings. -/
def polyEq (p q : Polynomial) : Bool :=
  let _selfCopy := simplify p
  let _otherCopy := simplify q
  termsEqList p.terms q.terms

/-- Mirrors the method `Polynomial::degree` (lines 169-175): maximum of
the terms' maximum variable degrees, `0` for an empty term list. -/
def polyDegree (p : Polynomial) : ℚ :=
  match p.terms.map Term.maxDegree with
  | [] => 0
  | d :: ds => ds.foldl max d

/-- Mirrors `Polynomial::leading_term` (lines 185-199): scan the terms,
keeping the latest one whose degree is `≥` the running maximum (so the
last term of maximal degree wins ties); starts from the zero term. -/
def leadingTerm (p : Polynomial) : Term :=
  (p.terms.foldl
    (fun acc t => if acc.1 ≤ t.maxDegree then (t.maxDegree, t) else acc)
    ((0 : ℚ), zeroTerm)).2

/-- Mirrors `Polynomial::make_integer` (lines 343-355): multiply every
coefficient by the lcm of the denominators; returns the scaled
polynomial together with that lcm (the source mutates in place and
returns the scalar). -/
def makeInteger (p : Polynomial) : Polynomial × ℕ :=
  let l := p.terms.foldl (fun acc t => Nat.lcm acc t.coefficient.den) 1
  ({ p with terms := p.terms.map fun t => { t with coefficient := t.coefficient * (l : ℚ) } }, l)

/-- Mirrors `Polynomial::factor` (lines 358-447).  `none` models the
index panics of the source: `self.terms[0]` on an empty term list, and
`p.terms[0].variables[0]` when the first simplified term has no
variables.  The early return of the source (no variable common to all
terms) is taken exactly when the running intersection of variable-name
lists becomes empty; since the intersection only shrinks and the
returned value does not depend on when it empties, it is computed here
by a single fold. -/
def Polynomial.factor (p : Polynomial) : Option (Term × Polynomial) :=
  match p.terms with
  | [] => none
  | t0 :: _ =>
    let g : ℕ := p.terms.foldl (fun acc t => Nat.gcd acc t.coefficient.num.natAbs)
      t0.coefficient.num.natAbs
    let seen : List String := p.terms.foldl
      (fun s t => s.filter fun nm => (t.vars.map Variable.name).contains nm)
      (t0.vars.map Variable.name)
    match seen with
    | [] =>
      let factored :=
        if g ≠ 0 then
          { p with terms := p.terms.map fun t =>
              { t with coefficient := t.coefficient * (1 / (g : ℚ)) } }
        else p
      some (⟨(g : ℚ), []⟩, factored)
    | varName :: _ =>
      let scaled := makeInteger p
      let p2 := simplify scaled.1
      let adjust := scaled.2
      match p2.terms with
      | [] => none
      | u0 :: _ =>
        let g2 : ℕ := p2.terms.foldl (fun acc t => Nat.gcd acc t.coefficient.num.natAbs)
          u0.coefficient.num.natAbs
        match u0.vars with
        | [] => none
        | v0 :: _ =>
          let minDeg : ℚ := p2.terms.foldl
            (fun m t => t.vars.foldl
              (fun m2 v => if v.degree < m2 ∧ 0 < v.degree then v.degree else m2) m)
            v0.degree
          let factoredOut : Term := ⟨(g2 : ℚ), [⟨varName, minDeg⟩]⟩
          (Term.invert factoredOut).map fun inv =>
            let factored0 := mulPoly p ⟨[inv], 1⟩
            let factored1 := { factored0 with terms := factored0.terms.map fun t =>
              { t with coefficient := t.coefficient * (1 / (adjust : ℚ)) } }
            let fOut := { factoredOut with
              coefficient := factoredOut.coefficient * (1 / (adjust : ℚ)) }
            (fOut, simplify factored1)

/-- Mirrors `impl Div for Term` (lines 113-148): negate the divisor's
variable degrees, append the dividend's variables, divide the
coefficients, canonicalize the single product term, and return it as a
simplified polynomial.  The source's nested loops run over one-term
vectors, so they produce exactly one term.  Dividing by a term with
coefficient 0 panics in the source (`Rational64` division by zero),
modelled as `none`. -/
def termDiv (t1 t2 : Term) : Option Polynomial :=
  if t2.coefficient = 0 then none
  else
    let nv := (t2.vars.map fun v => { v with degree := -v.degree }) ++ t1.vars
    let nt := Term.factorVars (Term.sortVars ⟨t1.coefficient / t2.coefficient, nv⟩)
    some (simplify ⟨[nt], 1⟩)

/-- The long-division loop of `impl Div for Polynomial` (lines 681-694),
with explicit fuel: `none` on fuel exhaustion models divergence of the
source's `while` loop. -/
def divLoop : ℕ → Polynomial → Polynomial → Polynomial → Option Polynomial
  | 0, _, _, _ => none
  | fuel + 1, quotient, remainder, divisor =>
    if polyEq remainder zeroPoly1 = false ∧ remainder.terms ≠ [] ∧
        polyDegree divisor ≤ polyDegree remainder then
      match termDiv (leadingTerm remainder) (leadingTerm divisor) with
      | none => none
      | some t =>
        divLoop fuel (polyAdd quotient t)
          (simplify (polySub remainder (mulPoly divisor t))) divisor
    else some quotient

/-- Mirrors `From<Polynomial> for PolyRatio` (lines 971-984): the
polynomial over the constant denominator `1`. -/
def ratioFrom (p : Polynomial) : PolyRatio := ⟨p, onePoly⟩

/-- Mirrors `impl Div for Polynomial` (lines 634-699): simplify the
dividend; if its term list is empty return `0/1` (dead in practice,
since `simplify` never leaves an empty list); simplify the divisor; if
the dividend's degree is smaller than the divisor's return the
unreduced ratio `dividend/divisor`; otherwise run the long-division
loop and wrap the simplified quotient (discarding any remainder). -/
def divPoly (fuel : ℕ) (p q : Polynomial) : Option PolyRatio :=
  let dividend := simplify p
  if dividend.terms = [] then some (ratioFrom zeroPoly1)
  else
    let divisor := simplify q
    if polyDegree dividend < polyDegree divisor then some ⟨dividend, divisor⟩
    else (divLoop fuel ⟨[], 1⟩ dividend divisor).map fun qt => ratioFrom (simplify qt)

/-- Mirrors `PolyRatio::simplify` (lines 719-895).  `none` models the
panics reachable from it: the index panics inside `factor`, and the
inversion of the cancellation term when its coefficient is 0 (which
happens exactly when both sides canonicalize to the zero polynomial —
`Rational64::new(1, 0)` panics, line 853 via `Term::invert`). -/
def ratioSimplify (r : PolyRatio) : Option PolyRatio :=
  let num := simplify r.numerator
  let den := simplify r.denominator
  let scaledN := makeInteger num
  let scaledD := makeInteger den
  let adjN := scaledN.2
  let adjD := scaledD.2
  let n0 := scaledN.1
  let d0 := scaledD.1
  let mv1 := (d0.terms.flatMap fun t => t.vars.filter fun v => decide (v.degree < 0)).map
    fun v => { v with degree := -v.degree }
  let n1 := mulPoly n0 ⟨[⟨1, mv1⟩], 1⟩
  let d1 := mulPoly d0 ⟨[⟨1, mv1⟩], 1⟩
  let mv2 := (n1.terms.flatMap fun t => t.vars.filter fun v => decide (v.degree < 0)).map
    fun v => { v with degree := -v.degree }
  let n2 := mulPoly n1 ⟨[⟨1, mv2⟩], 1⟩
  let d2 := mulPoly d1 ⟨[⟨1, mv2⟩], 1⟩
  (Polynomial.factor n2).bind fun fn =>
  (Polynomial.factor d2).bind fun fd =>
  let t1 := fn.1
  let n3 := fn.2
  let t2 := fd.1
  let d3 := fd.2
  let shared : Option (String × ℚ) :=
    match t1.vars, t2.vars with
    | v1 :: _, v2 :: _ =>
      if v1.name = v2.name ∧ v1.name ≠ "" then some (v1.name, min v1.degree v2.degree)
      else none
    | _, _ => none
  let gcdTerm : Term :=
    ⟨(Nat.gcd t1.coefficient.num.natAbs t2.coefficient.num.natAbs : ℚ),
      match shared with
      | some s => [⟨s.1, s.2⟩]
      | none => []⟩
  let n4 := mulPoly n3 ⟨[t1], 1⟩
  let d4 := mulPoly d3 ⟨[t2], 1⟩
  (Term.invert gcdTerm).map fun inv =>
  let n5 := mulPoly n4 ⟨[inv], 1⟩
  let d5 := mulPoly d4 ⟨[inv], 1⟩
  let n6 := { n5 with terms := n5.terms.map fun t =>
    { t with coefficient := t.coefficient * (1 / (adjN : ℚ)) } }
  let d6 := { d5 with terms := d5.terms.map fun t =>
    { t with coefficient := t.coefficient * (1 / (adjD : ℚ)) } }
  let n7 := simplify n6
  let d7 := simplify d6
  if polyEq d7 n7 then ⟨onePoly, onePoly⟩ else ⟨n7, d7⟩

/-- Mirrors `impl Add for PolyRatio` (lines 917-929): cross-multiplied
sum over the product of denominators, then `simplify` (in place on the
result, which is then returned). -/
def ratioAdd (a b : PolyRatio) : Option PolyRatio :=
  ratioSimplify ⟨polyAdd (mulPoly a.numerator b.denominator) (mulPoly b.numerator a.denominator),
    mulPoly a.denominator b.denominator⟩

/-- Mirrors `impl Sub for PolyRatio` (lines 931-943). -/
def ratioSub (a b : PolyRatio) : Option PolyRatio :=
  ratioSimplify ⟨polySub (mulPoly a.numerator b.denominator) (mulPoly b.numerator a.denominator),
    mulPoly a.denominator b.denominator⟩

/-- Mirrors `impl Mul for PolyRatio` (lines 945-956). -/
def ratioMul (a b : PolyRatio) : Option PolyRatio :=
  ratioSimplify ⟨mulPoly a.numerator b.numerator, mulPoly a.denominator b.denominator⟩

/-- Mirrors `impl Div for PolyRatio` (lines 958-969). -/
def ratioDiv (a b : PolyRatio) : Option PolyRatio :=
  ratioSimplify ⟨mulPoly a.numerator b.denominator, mulPoly a.denominator b.numerator⟩

/-- Mirrors `Polynomial::roots` (lines 461-577).  The `v` argument
mirrors the `var: &str` parameter, which the body never reads.  `none`
models the source's panics: the `panic!` for degrees other than 1 and 2,
and the index panics on too-short term lists (`terms[0]` resp.
`terms[1]`, `terms[2]`).  The simplified copy computed and discarded at
lines 463-466 is mirrored by the unused `let`. -/
def rootsPoly (p : Polynomial) (v : String) : Option (List PolyRatio) :=
  let _selfCopy := simplify p
  let dg := polyDegree p
  if dg = 1 then
    match p.terms with
    | [] => none
    | t0 :: rest => do
      let a := t0.coefficient
      let b : Polynomial := ⟨rest, 1⟩
      let minusB ← ratioMul (ratioFrom b) (ratioFrom ⟨[⟨-1, []⟩], 1⟩)
      let root ← ratioDiv minusB (ratioFrom ⟨[⟨a, []⟩], 1⟩)
      pure [root]
  else if dg = 2 then
    match p.terms with
    | t0 :: t1 :: t2 :: _ => do
      let a := t0.coefficient
      let b := t1.coefficient
      let c := t2.coefficient
      let minusB ← ratioMul (ratioFrom ⟨[⟨-1, []⟩], 1⟩) (ratioFrom ⟨[⟨b, []⟩], 1⟩)
      let bSquared ← ratioMul (ratioFrom ⟨[⟨b, []⟩], 1⟩) (ratioFrom ⟨[⟨b, []⟩], 1⟩)
      let fourA ← ratioMul (ratioFrom ⟨[⟨4, []⟩], 1⟩) (ratioFrom ⟨[⟨a, []⟩], 1⟩)
      let fourAc ← ratioMul fourA (ratioFrom ⟨[⟨c, []⟩], 1⟩)
      let disc0 ← ratioSub bSquared fourAc
      let disc1 : PolyRatio :=
        ⟨{ disc0.numerator with degree := (1 : ℚ) / 2 },
         { disc0.denominator with degree := (1 : ℚ) / 2 }⟩
      let disc ← ratioSimplify disc1
      let twoA ← ratioMul (ratioFrom ⟨[⟨2, []⟩], 1⟩) (ratioFrom ⟨[⟨a, []⟩], 1⟩)
      let s1 ← ratioAdd minusB disc
      let root1 ← ratioDiv s1 twoA
      let s2 ← ratioSub minusB disc
      let root2 ← ratioDiv s2 twoA
      pure [root1, root2]
    | _ => none
  else none

/-- Display of a `Rational64` (the `num` crate prints just the numerator
when the denominator is 1, else `numer/denom`). -/
def ratToString (q : ℚ) : String :=
  if q.den = 1 then toString q.num else toString q.num ++ "/" ++ toString q.den

/-- Rendering of one variable inside `Polynomial::as_string` (lines
260-265). -/
def varToString (v : Variable) : String :=
  v.name ++ (if v.degree ≠ 1 then "^(" ++ ratToString v.degree ++ ")" else "")

/-- Mirrors `Polynomial::as_string` (lines 248-271): skip zero terms
when there is more than one term, prefix `+` on non-first positive
terms, omit a coefficient of exactly 1 on a term with variables, render
each variable, and wrap the whole sum in `(...)^(degree)` when the
outer exponent is not 1. -/
def polyAsString (p : Polynomial) : String :=
  let body := p.terms.enum.foldl
    (fun acc it =>
      let i := it.1
      let t := it.2
      if t.coefficient = 0 ∧ 1 < p.terms.length then acc
      else
        acc ++ (if i ≠ 0 ∧ 0 < t.coefficient then "+" else "")
          ++ (if t.vars = [] ∨ t.coefficient ≠ 1 then ratToString t.coefficient else "")
          ++ String.join (t.vars.map varToString))
    ""
  if p.degree ≠ 1 then "(" ++ body ++ ")^(" ++ ratToString p.degree ++ ")" else body

/-- Mirrors `PolyRatio::as_string` (lines 897-909): render the
numerator alone when the denominator renders as `"1"`, the division-by-
zero sentinel string when it renders as `"0"`, else `"(num) / (den)"`.
Note the source tests the RENDERED strings of the stored (possibly
uncanonicalized) polynomials; it never simplifies. -/
def ratioAsString (r : PolyRatio) : String :=
  if polyAsString r.denominator = "1" then polyAsString r.numerator
  else if polyAsString r.denominator = "0" then "ERROR: Division by zero!"
  else "(" ++ polyAsString r.numerator ++ ") / (" ++ polyAsString r.denominator ++ ")"

/-- The polynomial `x + x` stored as two unmerged terms (raw input for
the equality claim). -/
def pC1a : Polynomial := ⟨[⟨1, [⟨"x", 1⟩]⟩, ⟨1, [⟨"x", 1⟩]⟩], 1⟩

/-- The polynomial `2x`, the canonical form of `x + x`. -/
def pC1b : Polynomial := ⟨[⟨2, [⟨"x", 1⟩]⟩], 1⟩

/-- The one-term polynomial `x` with outer exponent 2. -/
def pC2 : Polynomial := ⟨[⟨1, [⟨"x", 1⟩]⟩], 2⟩

/-- The polynomial `x + 1` with outer exponent 3. -/
def pC3 : Polynomial := ⟨[⟨1, [⟨"x", 1⟩]⟩, ⟨1, []⟩], 3⟩

/-- The base term list of `pC3` as a degree-1 polynomial, `x + 1`. -/
def pC3base : Polynomial := ⟨[⟨1, [⟨"x", 1⟩]⟩, ⟨1, []⟩], 1⟩

/-- The canonical polynomial `3xy + 2z` of the linear-root scenario. -/
def pC4 : Polynomial := ⟨[⟨3, [⟨"x", 1⟩, ⟨"y", 1⟩]⟩, ⟨2, [⟨"z", 1⟩]⟩], 1⟩

/-- The polynomial `(1/2)·x` with a fractional coefficient. -/
def pC5 : Polynomial := ⟨[⟨(1 : ℚ) / 2, [⟨"x", 1⟩]⟩], 1⟩

/-- The raw zero polynomial with no terms. -/
def emptyPoly : Polynomial := ⟨[], 1⟩

/-- The polynomial `x`. -/
def xPoly : Polynomial := ⟨[⟨1, [⟨"x", 1⟩]⟩], 1⟩

theorem length_insertLt (lt : α → α → Bool) (a : α) (l : List α) :
    (insertLt lt a l).length = l.length + 1 := by
  induction l with
  | nil => rfl
  | cons b bs ih =>
    simp only [insertLt]
    split
    · simp
    · simp [ih]

theorem length_stableSort_aux (lt : α → α → Bool) (l acc : List α) :
    (l.foldl (fun acc2 a => insertLt lt a acc2) acc).length = acc.length + l.length := by
  induction l generalizing acc with
  | nil => simp
  | cons b bs ih =>
    simp only [List.foldl_cons]
    rw [ih, length_insertLt, List.length_cons]
    omega

theorem length_stableSort (lt : α → α → Bool) (l : List α) :
    (stableSort lt l).length = l.length := by
  simpa using length_stableSort_aux lt l []

/-- `canonTail` never produces an empty term list: the filtered list is
either replaced by `[zeroTerm]` or already nonempty, and sorting
preserves length. -/
theorem canonTail_terms_ne_nil (p : Polynomial) : (canonTail p).terms ≠ [] := by
  intro h
  have hl : (canonTail p).terms.length = 0 := by rw [h]; rfl
  unfold canonTail at hl
  simp only at hl
  rw [length_stableSort] at hl
  split at hl
  · simp at hl
  · next hne => exact hne (List.length_eq_zero.mp hl)

/-- Fidelity of `simplify1`: on a polynomial whose `degree` field is 1
(as is the case for every polynomial built inside the binary
operators), the full `simplify` agrees with `simplify1`, because the
self-multiplication branch requires `2 ≤ degree`. -/
theorem simplify_degree_one (p : Polynomial) (h : p.degree = 1) :
    simplify p = simplify1 p := by
  obtain ⟨ts, dg⟩ := p
  simp only at h
  subst h
  unfold simplify simplify1
  rcases ts with _ | ⟨t, _ | ⟨u, rest⟩⟩
  · simp only
    rw [if_neg]
    rintro ⟨-, hc⟩
    exact absurd hc (by decide)
  · rfl
  · simp only
    rw [if_neg]
    rintro ⟨-, hc⟩
    exact absurd hc (by decide)

/-- Unfolding lemma for `polyEq`: the dead simplified clones reduce
away, leaving the comparison of the raw term lists. -/
theorem polyEq_spec (p q : Polynomial) : polyEq p q = termsEqList p.terms q.terms := rfl

theorem mulPoly_nil_left (d : ℚ) (q : Polynomial) :
    mulPoly ⟨[], d⟩ q = zeroPoly1 := rfl

theorem mulPoly_zero_zero : mulPoly zeroPoly1 zeroPoly1 = zeroPoly1 := by decide

theorem iterate_mulPoly_zero (k : ℕ) :
    Nat.iterate (fun s => mulPoly s s) k zeroPoly1 = zeroPoly1 := by
  induction k with
  | zero => rfl
  | succ n ih => rw [Function.iterate_succ_apply, mulPoly_zero_zero, ih]

/-- C1.  The claim states that `p == q` holds exactly when the term
sequences of the canonicalized clones are equal, so that `x + x == 2x`.
The code simplifies clones of both sides but then compares the ORIGINAL
term lists (`self.terms == other.terms`, line 708), so `polyEq` returns
`false` on `x + x` vs `2x` even though their canonical forms coincide:
the claim (and the spec) describe the evident intent, the code drops the
simplified clones — a code bug. -/
theorem c1_eval :
    polyEq pC1a pC1b = false ∧ (simplify pC1a).terms = (simplify pC1b).terms :=
  ⟨by decide, by decide⟩

/-- C2.  The claim states `simplify (simplify p) == simplify p` for all
`p`, also when the outer exponent is not 1.  The code never resets the
`degree` field after consuming it in the single-term branch (line 308),
so each call re-applies the power: on `p = {terms: [x], degree: 2}` the
first `simplify` yields `x^2` (degree field still 2) and the second
yields `x^4` — idempotence fails, refuting the claim on the code; the
spec's step "clear the need to re-apply power elsewhere" (§4.2) marks
the intent, so this is a code bug. -/
theorem c2_eval :
    simplify pC2 = ⟨[⟨1, [⟨"x", 2⟩]⟩], 2⟩ ∧
      simplify (simplify pC2) = ⟨[⟨1, [⟨"x", 4⟩]⟩], 2⟩ ∧
      (simplify (simplify pC2)).terms ≠ (simplify pC2).terms :=
  ⟨by decide, by decide, by decide⟩

/-- C3.  The claim states that for an integer outer exponent `n ≥ 2` and
two or more terms, `simplify` raises the polynomial to the `n`-th power
(the `n`-fold product of the base term list).  The loop at lines 309-313
SQUARES the polynomial `n − 1` times, producing the `2^(n−1)`-th power:
on `p = (x + 1)` with outer exponent 3 it yields the expansion of
`(x+1)^4`, not the 3-fold product `(x+1)^3` — a code bug the spec itself
flags (§4.2 note, §9). -/
theorem c3_eval :
    simplify pC3 =
      ⟨[⟨1, [⟨"x", 4⟩]⟩, ⟨4, [⟨"x", 3⟩]⟩, ⟨6, [⟨"x", 2⟩]⟩, ⟨4, [⟨"x", 1⟩]⟩, ⟨1, []⟩], 1⟩ ∧
      mulPoly (mulPoly pC3base pC3base) pC3base =
        ⟨[⟨1, [⟨"x", 3⟩]⟩, ⟨3, [⟨"x", 2⟩]⟩, ⟨3, [⟨"x", 1⟩]⟩, ⟨1, []⟩], 1⟩ ∧
      (simplify pC3).terms ≠ (mulPoly (mulPoly pC3base pC3base) pC3base).terms :=
  ⟨by decide, by decide, by decide⟩

/-- C4.  The claim (and Scenario B of the spec) states that for the
canonical `p = 3xy + 2z`, `p.roots("x")` returns one ratio equal to
`(−2z)/(3y)`.  The code divides `−b` by the COEFFICIENT of the leading
term only (`a = self.terms[0].coefficient`, line 473), dropping the
leading term's variables `x` and `y`, so the returned ratio is
`(−2z)/3` — its denominator is the constant 3, carrying no `y` at all;
mathematically `−2z/3` is not the root of `3xy + 2z = 0` in `x`, so the
spec is the intent and this is a code bug. -/
theorem c4_eval :
    rootsPoly pC4 "x" = some [⟨⟨[⟨-2, [⟨"z", 1⟩]⟩], 1⟩, ⟨[⟨3, []⟩], 1⟩⟩] ∧
      (⟨[⟨3, []⟩], 1⟩ : Polynomial) ≠ ⟨[⟨3, [⟨"y", 1⟩]⟩], 1⟩ :=
  ⟨by decide, by decide⟩

/-- C5.  The claim states the factoring round-trip
`(t * r).simplify() == p.simplify()` for every `p`, including fractional
coefficients.  After scaling the polynomial to integer coefficients by
`adjust`, the code divides BOTH returned factors by `adjust` (lines
439-442), so their product is `p / adjust`: on `p = (1/2)x` the result
is `((1/2)x, 1/4)` whose product simplifies to `(1/8)x ≠ (1/2)x` — a
code bug (one factor too many is scaled back). -/
theorem c5_eval :
    Polynomial.factor pC5 = some (⟨(1 : ℚ) / 2, [⟨"x", 1⟩]⟩, ⟨[⟨(1 : ℚ) / 4, []⟩], 1⟩) ∧
      simplify (mulPoly ⟨[⟨(1 : ℚ) / 2, [⟨"x", 1⟩]⟩], 1⟩ ⟨[⟨(1 : ℚ) / 4, []⟩], 1⟩) =
        ⟨[⟨(1 : ℚ) / 8, [⟨"x", 1⟩]⟩], 1⟩ ∧
      simplify pC5 = ⟨[⟨(1 : ℚ) / 2, [⟨"x", 1⟩]⟩], 1⟩ :=
  ⟨by decide, by decide, by decide⟩

/-- C6 counterexample.  The claim states that dividing a zero dividend
by ANY divisor returns the ratio `0/1`.  Dividing the canonical zero
polynomial by `x` returns the unreduced ratio with denominator `x`
(the `remainder.degree() < divisor.degree()` early return, lines
674-679), not the constant polynomial 1. -/
theorem c6_cex :
    divPoly 5 zeroPoly1 xPoly = some (PolyRatio.mk zeroPoly1 ⟨[⟨1, [⟨"x", 1⟩]⟩], 1⟩) ∧
      (⟨[⟨1, [⟨"x", 1⟩]⟩], 1⟩ : Polynomial) ≠ onePoly :=
  ⟨by decide, by decide⟩

/-- C6 (amended).  For every dividend that canonicalizes to the zero
polynomial: when the canonicalized divisor has positive degree, division
returns the unreduced ratio `0 / divisor`; when its degree is not
positive, division returns the canonical ratio `0/1`.  (The source's
empty-term early return for the dividend is dead code, since `simplify`
never leaves an empty list.) -/
theorem c6_thm (p q : Polynomial) (fuel : ℕ)
    (h : (simplify p).terms = [zeroTerm]) :
    divPoly (fuel + 1) p q =
      some (if 0 < polyDegree (simplify q) then PolyRatio.mk (simplify p) (simplify q)
            else PolyRatio.mk zeroPoly1 onePoly) := by
  have hne : ¬ (simplify p).terms = [] := by rw [h]; exact List.cons_ne_nil _ _
  have hdeg : polyDegree (simplify p) = 0 := by
    unfold polyDegree
    rw [h]
    rfl
  have heqz : polyEq (simplify p) zeroPoly1 = true := by
    rw [polyEq_spec, h]
    rfl
  unfold divPoly
  dsimp only
  rw [if_neg hne]
  by_cases hq : 0 < polyDegree (simplify q)
  · rw [if_pos (by rw [hdeg]; exact hq), if_pos hq]
  · rw [if_neg (by rw [hdeg]; exact hq), if_neg hq]
    have hloop : divLoop (fuel + 1) ⟨[], 1⟩ (simplify p) (simplify q) = some ⟨[], 1⟩ := by
      unfold divLoop
      rw [if_neg]
      rintro ⟨hc, -⟩
      rw [heqz] at hc
      cases hc
    rw [hloop]
    decide

/-- Witness for C6: dividing the raw empty polynomial (which
canonicalizes to zero) by `x` at fuel 1, via `c6_thm`. -/
theorem c6_witness :
    divPoly 1 emptyPoly xPoly = some (PolyRatio.mk (simplify emptyPoly) (simplify xPoly)) := by
  have h := c6_thm emptyPoly xPoly 0 (by decide)
  rw [if_pos (by decide)] at h
  exact h

/-- C7 counterexample.  The claim quantifies over every ratio whose
denominator CANONICALIZES to zero and asserts both that `as_string`
returns exactly the sentinel string and that neither `simplify` nor
`as_string` raises a fatal error, including the `0/0` shape.  Both
parts fail at concrete inputs.  First, the denominator `x − x` stored
unsimplified canonicalizes to the zero polynomial, yet `as_string` —
which tests the rendered string of the STORED denominator without
canonicalizing (lines 897-909) — prints `"(1) / (x-1x)"` for `1/(x−x)`,
not the sentinel.  Second, `PolyRatio::simplify` on `0/0` factors both
sides into `(0, 0)`, builds a cancellation term with coefficient
`gcd(0,0) = 0`, and inverts it, which executes `Rational64::new(1, 0)`
— a panic (modelled as `none`). -/
theorem c7_cex :
    (simplify ⟨[⟨1, [⟨"x", 1⟩]⟩, ⟨-1, [⟨"x", 1⟩]⟩], 1⟩).terms = [zeroTerm] ∧
      ratioAsString ⟨onePoly, ⟨[⟨1, [⟨"x", 1⟩]⟩, ⟨-1, [⟨"x", 1⟩]⟩], 1⟩⟩ = "(1) / (x-1x)" ∧
      ratioAsString ⟨onePoly, ⟨[⟨1, [⟨"x", 1⟩]⟩, ⟨-1, [⟨"x", 1⟩]⟩], 1⟩⟩ ≠
        "ERROR: Division by zero!" ∧
      ratioSimplify ⟨zeroPoly1, zeroPoly1⟩ = none :=
  ⟨by decide, by decide, by decide, by decide⟩

/-- C7 (amended).  `as_string` returns exactly
`"ERROR: Division by zero!"` for every ratio whose denominator is the
canonical zero polynomial (the check is on the RENDERED string of the
stored denominator, without canonicalizing), and `as_string` itself is
total — it never panics.  `PolyRatio::simplify`, however, panics on
ratios whose numerator and denominator both canonicalize to zero, so
the no-panic guarantee is restricted to `as_string`. -/
theorem c7_thm (n : Polynomial) :
    ratioAsString ⟨n, zeroPoly1⟩ = "ERROR: Division by zero!" := by
  unfold ratioAsString
  rw [show (PolyRatio.mk n zeroPoly1).denominator = zeroPoly1 from rfl]
  rw [if_neg (by decide), if_pos (by decide)]

/-- C8.  Canonicalization never produces an empty term list: for every
polynomial (including one constructed with zero terms) `simplify`
leaves at least one term, and a polynomial with no terms at all
simplifies to exactly the single canonical zero term. -/
theorem c8_thm (p : Polynomial) :
    (simplify p).terms ≠ [] ∧ (p.terms = [] → (simplify p).terms = [zeroTerm]) := by
  obtain ⟨ts, dg⟩ := p
  constructor
  · rcases ts with _ | ⟨t, _ | ⟨u, rest⟩⟩
    · show (if dg.den = 1 ∧ 2 ≤ dg.num then canonTail (powIter (dg.num.toNat - 1) ⟨[], dg⟩)
        else canonTail ⟨[], dg⟩).terms ≠ []
      split
      · exact canonTail_terms_ne_nil _
      · exact canonTail_terms_ne_nil _
    · exact canonTail_terms_ne_nil _
    · show (if dg.den = 1 ∧ 2 ≤ dg.num then
          canonTail (powIter (dg.num.toNat - 1) ⟨t :: u :: rest, dg⟩)
        else canonTail ⟨t :: u :: rest, dg⟩).terms ≠ []
      split
      · exact canonTail_terms_ne_nil _
      · exact canonTail_terms_ne_nil _
  · intro h
    simp only at h
    subst h
    show (if dg.den = 1 ∧ 2 ≤ dg.num then canonTail (powIter (dg.num.toNat - 1) ⟨[], dg⟩)
        else canonTail ⟨[], dg⟩).terms = [zeroTerm]
    by_cases hd : dg.den = 1 ∧ 2 ≤ dg.num
    · rw [if_pos hd]
      have h2 := hd.2
      have hk : dg.num.toNat - 1 = (dg.num.toNat - 2) + 1 := by omega
      unfold powIter
      rw [hk, Function.iterate_succ_apply]
      have h1 : mulPoly ⟨[], dg⟩ ⟨[], dg⟩ = zeroPoly1 := rfl
      rw [h1, iterate_mulPoly_zero]
      decide
    · rw [if_neg hd]
      rfl

/-- Witness for C8: the empty-term polynomial with outer exponent 3
(which exercises the self-multiplication branch) simplifies to the
single canonical zero term, via `c8_thm`. -/
theorem c8_witness : (simplify (⟨[], 3⟩ : Polynomial)).terms = [zeroTerm] :=
  (c8_thm ⟨[], 3⟩).2 rfl

/-- C10.  The variable-name argument of `roots` has no effect on the
result: the body of `Polynomial::roots` never reads its `var`
parameter, so the embedded `rootsPoly` is literally constant in it and
the two applications are definitionally equal. -/
theorem c10_thm (p : Polynomial) (v1 v2 : String) : rootsPoly p v1 = rootsPoly p v2 := rfl

end SymTfg
